import Mathlib

/-!
Verification of the analysis pass of fancy-regex (`src/analyze.rs`).

The Rust code walks a parsed regex AST once, threading a group-index
counter, and annotates every node with `start_group`/`end_group`,
`min_size`, `const_size`, `hard` and `looks_left`.  We embed the AST
(`Expr`), the annotation record (`AnalyzedExpr`), the visitor
(`Analyzer.visit`, here `visit`) and the literal detector
(`is_literal` / `push_literal`) as executable Lean functions, and prove
the stated properties about them.

Rust `Result<T>` with the single analysis error `Error::InvalidBackref`
is modelled by `Except Failure`; the Rust panic on the out-of-bounds
index `v[0]` for an empty alternation branch list is modelled by the
distinct `Failure.panicked` value (a panic is not an `Error` value in
the source, so we keep the two failure modes apart).  `push_literal`'s
panic is modelled by returning `none`.
-/

namespace FancyRegex

/-- The AST node type consumed by the analyzer (`Expr` in the source;
the analyzer only matches on it, so fields the analyzer ignores are kept
but unused). -/
inductive Expr : Type where
  | Empty : Expr
  | Any : Bool → Expr
  | StartText : Expr
  | EndText : Expr
  | StartLine : Expr
  | EndLine : Expr
  | Literal : String → Bool → Expr
  | Concat : List Expr → Expr
  | Alt : List Expr → Expr
  | Group : Expr → Expr
  | LookAround : Expr → Nat → Expr
  | Repeat : Expr → Nat → Nat → Bool → Expr
  | Delegate : String → Nat → Expr
  | Backref : Nat → Expr
  | AtomicGroup : Expr → Expr

/-- The annotation record built for every AST node
(`AnalyzedExpr` in the source).  Field order:
expr, children, start_group, end_group, min_size, const_size, hard,
looks_left. -/
inductive AnalyzedExpr : Type where
  | mk : Expr → List AnalyzedExpr → Nat → Nat → Nat → Bool → Bool → Bool → AnalyzedExpr

def AnalyzedExpr.expr : AnalyzedExpr → Expr
  | .mk e _ _ _ _ _ _ _ => e

def AnalyzedExpr.children : AnalyzedExpr → List AnalyzedExpr
  | .mk _ ch _ _ _ _ _ _ => ch

def AnalyzedExpr.start_group : AnalyzedExpr → Nat
  | .mk _ _ sg _ _ _ _ _ => sg

def AnalyzedExpr.end_group : AnalyzedExpr → Nat
  | .mk _ _ _ eg _ _ _ _ => eg

def AnalyzedExpr.min_size : AnalyzedExpr → Nat
  | .mk _ _ _ _ ms _ _ _ => ms

def AnalyzedExpr.const_size : AnalyzedExpr → Bool
  | .mk _ _ _ _ _ cs _ _ => cs

def AnalyzedExpr.hard : AnalyzedExpr → Bool
  | .mk _ _ _ _ _ _ hd _ => hd

def AnalyzedExpr.looks_left : AnalyzedExpr → Bool
  | .mk _ _ _ _ _ _ _ ll => ll

/-- The two ways the walk can fail: `invalidBackref` is the Rust
`Err(Error::InvalidBackref)` return; `panicked` models the Rust panic
raised by the out-of-bounds index `v[0]` when an `Alt` node has an
empty branch list. -/
inductive Failure : Type where
  | invalidBackref : Failure
  | panicked : Failure
  deriving Repr, DecidableEq

/-- `literal_const_size` from the source: currently always true
(the source's conservative placeholder for case-folding size
analysis). -/
def literal_const_size (_ : String) (_ : Bool) : Bool :=
  true

/- `Analyzer::visit`.  The Rust method threads `self.group_ix`; here
the counter is an explicit argument and is returned alongside the
annotated node.  `b` is the BitSet of backreferenced group indices,
modelled as a list with `List.contains` for `BitSet::contains`.
`visitConcatGo` and `visitAltGo` are the two `for` loops of the
`Concat` and `Alt` arms, carrying the loop's accumulator variables
(`min_size`, `const_size`, `hard`, `looks_left`). -/
mutual

def visit (b : List Nat) : Expr → Nat → Except Failure (AnalyzedExpr × Nat)
  | .Empty, g => .ok (.mk .Empty [] g g 0 true false false, g)
  | .EndText, g => .ok (.mk .EndText [] g g 0 true false false, g)
  | .EndLine, g => .ok (.mk .EndLine [] g g 0 true false false, g)
  | .Any nl, g => .ok (.mk (.Any nl) [] g g 1 true false false, g)
  | .Literal val casei, g =>
      .ok (.mk (.Literal val casei) [] g g 1 (literal_const_size val casei) false false, g)
  | .StartText, g => .ok (.mk .StartText [] g g 0 true false true, g)
  | .StartLine, g => .ok (.mk .StartLine [] g g 0 true false true, g)
  | .Concat v, g =>
      match visitConcatGo b v g 0 true false false with
      | .error f => .error f
      | .ok (ch, ms, cs, hd, ll, g') => .ok (.mk (.Concat v) ch g g' ms cs hd ll, g')
  | .Alt v, g =>
      match v with
      | [] => .error .panicked
      | c0 :: rest =>
          match visit b c0 g with
          | .error f => .error f
          | .ok (a0, g0) =>
              match visitAltGo b rest g0 a0.min_size a0.const_size a0.hard false with
              | .error f => .error f
              | .ok (ch, ms, cs, hd, ll, g') =>
                  .ok (.mk (.Alt v) (a0 :: ch) g g' ms cs hd ll, g')
  | .Group c, g =>
      match visit b c (g + 1) with
      | .error f => .error f
      | .ok (ac, g') =>
          .ok (.mk (.Group c) [ac] g g' ac.min_size ac.const_size
                (ac.hard || b.contains g) ac.looks_left, g')
  | .LookAround c k, g =>
      match visit b c g with
      | .error f => .error f
      | .ok (ac, g') => .ok (.mk (.LookAround c k) [ac] g g' 0 true true ac.looks_left, g')
  | .Repeat c lo hi gr, g =>
      match visit b c g with
      | .error f => .error f
      | .ok (ac, g') =>
          .ok (.mk (.Repeat c lo hi gr) [ac] g g' (ac.min_size * lo)
                (ac.const_size && lo == hi) ac.hard ac.looks_left, g')
  | .Delegate inner size, g =>
      .ok (.mk (.Delegate inner size) [] g g size true false (size == 0), g)
  | .Backref k, g =>
      if k ≥ g then .error .invalidBackref
      else .ok (.mk (.Backref k) [] g g 0 false true false, g)
  | .AtomicGroup c, g =>
      match visit b c g with
      | .error f => .error f
      | .ok (ac, g') =>
          .ok (.mk (.AtomicGroup c) [ac] g g' ac.min_size ac.const_size true ac.looks_left, g')

def visitConcatGo (b : List Nat) :
    List Expr → Nat → Nat → Bool → Bool → Bool →
    Except Failure (List AnalyzedExpr × Nat × Bool × Bool × Bool × Nat)
  | [], g, ms, cs, hd, ll => .ok ([], ms, cs, hd, ll, g)
  | c :: rest, g, ms, cs, hd, ll =>
      match visit b c g with
      | .error f => .error f
      | .ok (ac, g') =>
          match visitConcatGo b rest g' (ms + ac.min_size) (cs && ac.const_size)
              (hd || ac.hard) (ll || (ac.looks_left && ms == 0)) with
          | .error f => .error f
          | .ok (chs, r) => .ok (ac :: chs, r)

def visitAltGo (b : List Nat) :
    List Expr → Nat → Nat → Bool → Bool → Bool →
    Except Failure (List AnalyzedExpr × Nat × Bool × Bool × Bool × Nat)
  | [], g, ms, cs, hd, ll => .ok ([], ms, cs, hd, ll, g)
  | c :: rest, g, ms, cs, hd, ll =>
      match visit b c g with
      | .error f => .error f
      | .ok (ac, g') =>
          match visitAltGo b rest g' (min ms ac.min_size)
              (cs && (ac.const_size && ms == ac.min_size))
              (hd || ac.hard) (ll || ac.looks_left) with
          | .error f => .error f
          | .ok (chs, r) => .ok (ac :: chs, r)

end

/-- `analyze`: entry point; starts the group counter at 0 and returns
only the annotated tree. -/
def analyze (e : Expr) (b : List Nat) : Except Failure AnalyzedExpr :=
  (visit b e 0).map Prod.fst

/- `AnalyzedExpr::is_literal`, with `isLiteralList` standing for the
`children.iter().all(...)` of the `Concat` arm. -/
mutual

def AnalyzedExpr.is_literal : AnalyzedExpr → Bool
  | .mk e ch _ _ _ _ _ _ =>
    match e with
    | .Literal _ casei => !casei
    | .Concat _ => isLiteralList ch
    | _ => false

def isLiteralList : List AnalyzedExpr → Bool
  | [] => true
  | c :: rest => c.is_literal && isLiteralList rest

end

/- `AnalyzedExpr::push_literal`.  Rust appends to `buf: &mut String`;
here the buffer is passed and returned.  `none` models the panic of the
catch-all arm; `pushLiteralList` is the `for child in &self.children`
loop of the `Concat` arm, and a panic in any child aborts the whole
call. -/
mutual

def AnalyzedExpr.push_literal : AnalyzedExpr → String → Option String
  | .mk e ch _ _ _ _ _ _, buf =>
    match e with
    | .Literal val _ => some (buf ++ val)
    | .Concat _ => pushLiteralList ch buf
    | _ => none

def pushLiteralList : List AnalyzedExpr → String → Option String
  | [], buf => some buf
  | c :: rest, buf =>
      match c.push_literal buf with
      | none => none
      | some buf' => pushLiteralList rest buf'

end

/- Total number of `Group` nodes in an AST, with `countGroupsList`
summing over a list of ASTs. -/
mutual

def countGroups : Expr → Nat
  | .Concat v | .Alt v => countGroupsList v
  | .Group c => 1 + countGroups c
  | .LookAround c _ => countGroups c
  | .Repeat c _ _ _ => countGroups c
  | .AtomicGroup c => countGroups c
  | _ => 0

def countGroupsList : List Expr → Nat
  | [] => 0
  | c :: rest => countGroups c + countGroupsList rest

end

/- An AST is well formed when every `Alt` node has at least one
branch (the shape the parser guarantees; the analyzer indexes `v[0]`
without a guard). -/
mutual

def wellFormed : Expr → Bool
  | .Concat v => wellFormedList v
  | .Alt v => !v.isEmpty && wellFormedList v
  | .Group c => wellFormed c
  | .LookAround c _ => wellFormed c
  | .Repeat c _ _ _ => wellFormed c
  | .AtomicGroup c => wellFormed c
  | _ => true

def wellFormedList : List Expr → Bool
  | [] => true
  | c :: rest => wellFormed c && wellFormedList rest

end

/- Follows the spec's words (§4 Backreference, §7): a pre-order,
left-to-right walk that threads the running group counter (incremented
once per `Group`, before its body) and fails exactly when it reaches a
`Backreference(group_index)` with `group_index >= current group
counter`; on failure the walk aborts.  Written independently of
`visit` to state that `analyze` fails with `InvalidBackref` exactly
when this condition occurs. -/
mutual

def specWalk : Expr → Nat → Except Unit Nat
  | .Concat v, g | .Alt v, g => specWalkList v g
  | .Group c, g => specWalk c (g + 1)
  | .LookAround c _, g => specWalk c g
  | .Repeat c _ _ _, g => specWalk c g
  | .AtomicGroup c, g => specWalk c g
  | .Backref k, g => if k ≥ g then .error () else .ok g
  | _, g => .ok g

def specWalkList : List Expr → Nat → Except Unit Nat
  | [], g => .ok g
  | c :: rest, g =>
      match specWalk c g with
      | .error e => .error e
      | .ok g' => specWalkList rest g'

end

/- All nodes of an annotated tree, in pre-order. -/
mutual

def nodesOf : AnalyzedExpr → List AnalyzedExpr
  | .mk e ch sg eg ms cs hd ll => .mk e ch sg eg ms cs hd ll :: nodesOfList ch

def nodesOfList : List AnalyzedExpr → List AnalyzedExpr
  | [] => []
  | c :: rest => nodesOf c ++ nodesOfList rest

end

/-- Consecutive siblings' group ranges are adjacent left to right:
each sibling's `end_group` is the next sibling's `start_group` (so the
half-open ranges do not overlap and increase in traversal order). -/
def siblingsChained : List AnalyzedExpr → Bool
  | [] => true
  | [_] => true
  | a :: c :: rest => (a.end_group == c.start_group) && siblingsChained (c :: rest)

/-- The per-node group-range invariant: `start_group ≤ end_group`, and
for `Concat`/`Alt` nodes the children's ranges are chained left to
right. -/
def goodNode (n : AnalyzedExpr) : Bool :=
  decide (n.start_group ≤ n.end_group) &&
    (match n.expr with
     | .Concat _ => siblingsChained n.children
     | .Alt _ => siblingsChained n.children
     | _ => true)

/-- Maximum `end_group` over all nodes of an annotated tree. -/
def maxEnd (a : AnalyzedExpr) : Nat :=
  (nodesOf a).foldl (fun m n => max m n.end_group) 0

/-- A list of annotated siblings occupies the group range `[g, g')`:
each sibling starts where the previous one ended. -/
def chainFrom : Nat → List AnalyzedExpr → Nat → Prop
  | g, [], g' => g = g'
  | g, a :: rest, g' => a.start_group = g ∧ chainFrom a.end_group rest g'

/-- A node that is a `Group` whose allocated index (its `start_group`)
is in the backreferenced set is marked hard. -/
def groupHardMark (b : List Nat) (n : AnalyzedExpr) : Prop :=
  ∀ c, n.expr = .Group c → b.contains n.start_group = true → n.hard = true

/-- Whether a node's underlying AST node is a `Literal` or a `Concat`,
the two variants `push_literal` handles without panicking. -/
def isLiteralOrConcatNode (n : AnalyzedExpr) : Bool :=
  match n.expr with
  | .Literal _ _ => true
  | .Concat _ => true
  | _ => false

/- Whether an AST contains a `Backref` to group index `k` anywhere. -/
mutual

def mentionsBackref : Expr → Nat → Bool
  | .Backref j, k => j == k
  | .Concat v, k => mentionsBackrefList v k
  | .Alt v, k => mentionsBackrefList v k
  | .Group c, k => mentionsBackref c k
  | .LookAround c _, k => mentionsBackref c k
  | .Repeat c _ _ _, k => mentionsBackref c k
  | .AtomicGroup c, k => mentionsBackref c k
  | _, _ => false

def mentionsBackrefList : List Expr → Nat → Bool
  | [], _ => false
  | c :: rest, k => mentionsBackref c k || mentionsBackrefList rest k

end

/-- The walk invariant: a successful `visit b e g = .ok (a, g')`
returns a node annotating `e` itself, occupying the group range
`[g, g')` with `g'` determined by the number of `Group` nodes, and
every node of the result satisfies the per-node range invariant, stays
within the range, and has backreferenced groups marked hard. -/
def Inv (b : List Nat) (e : Expr) (g : Nat) (a : AnalyzedExpr) (g' : Nat) : Prop :=
  a.expr = e ∧ a.start_group = g ∧ a.end_group = g' ∧ g' = g + countGroups e ∧
    (∀ n ∈ nodesOf a, goodNode n = true ∧ n.end_group ≤ g' ∧ groupHardMark b n)

/-! ### Helper lemmas -/

theorem nodesOf_mk (e : Expr) (ch : List AnalyzedExpr) (sg eg ms : Nat)
    (cs hd ll : Bool) :
    nodesOf (.mk e ch sg eg ms cs hd ll) = .mk e ch sg eg ms cs hd ll :: nodesOfList ch := by
  rw [nodesOf]

theorem nodesOfList_nil : nodesOfList [] = [] := by
  rw [nodesOfList]

theorem nodesOfList_cons (c : AnalyzedExpr) (rest : List AnalyzedExpr) :
    nodesOfList (c :: rest) = nodesOf c ++ nodesOfList rest := by
  rw [nodesOfList]

theorem self_mem_nodesOf (a : AnalyzedExpr) : a ∈ nodesOf a := by
  cases a
  rw [nodesOf_mk]
  exact List.mem_cons_self _ _

theorem chainFrom_siblingsChained :
    ∀ (ch : List AnalyzedExpr) (g g' : Nat), chainFrom g ch g' → siblingsChained ch = true := by
  intro ch
  induction ch with
  | nil => intro g g' _; rfl
  | cons a rest ih =>
    intro g g' h
    obtain ⟨-, hrest⟩ := h
    cases rest with
    | nil => rfl
    | cons c rest' =>
      have hc : c.start_group = a.end_group := hrest.1
      simp only [siblingsChained, Bool.and_eq_true, beq_iff_eq]
      exact ⟨hc.symm, ih _ _ hrest⟩

theorem foldl_max_le (l : List Nat) (m : Nat) :
    ∀ acc, acc ≤ m → (∀ x ∈ l, x ≤ m) → l.foldl max acc ≤ m := by
  induction l with
  | nil => intro acc ha _; simpa using ha
  | cons x rest ih =>
    intro acc ha h
    simp only [List.foldl_cons]
    exact ih _ (max_le ha (h x (List.mem_cons_self _ _)))
      (fun y hy => h y (List.mem_cons_of_mem _ hy))

theorem foldl_max_acc_le (l : List Nat) : ∀ acc, acc ≤ l.foldl max acc := by
  induction l with
  | nil => intro acc; exact le_refl _
  | cons y rest ih =>
    intro acc
    simp only [List.foldl_cons]
    exact le_trans (le_max_left _ _) (ih _)

theorem le_foldl_max (l : List Nat) (x : Nat) (hx : x ∈ l) :
    ∀ acc, x ≤ l.foldl max acc := by
  induction l with
  | nil => cases hx
  | cons y rest ih =>
    intro acc
    rcases List.mem_cons.mp hx with h | h
    · subst h
      simp only [List.foldl_cons]
      exact le_trans (le_max_right _ _) (foldl_max_acc_le _ _)
    · exact ih h _

theorem maxEnd_eq (a : AnalyzedExpr) (g' : Nat) (hroot : a.end_group = g')
    (hall : ∀ n ∈ nodesOf a, n.end_group ≤ g') : maxEnd a = g' := by
  have hmap : maxEnd a = ((nodesOf a).map AnalyzedExpr.end_group).foldl max 0 := by
    rw [maxEnd, List.foldl_map]
  rw [hmap]
  apply le_antisymm
  · apply foldl_max_le _ _ _ (Nat.zero_le _)
    intro x hx
    rcases List.mem_map.mp hx with ⟨n, hn, rfl⟩
    exact hall n hn
  · rw [← hroot]
    exact le_foldl_max _ _ (List.mem_map_of_mem _ (self_mem_nodesOf a)) 0

theorem visitConcatGo_inv (b : List Nat) :
    ∀ (v : List Expr),
      (∀ c ∈ v, ∀ g a g', visit b c g = .ok (a, g') → Inv b c g a g') →
      ∀ g ms cs hd ll ch ms' cs' hd' ll' g',
        visitConcatGo b v g ms cs hd ll = .ok (ch, ms', cs', hd', ll', g') →
        g' = g + countGroupsList v ∧
        chainFrom g ch g' ∧
        ms' = ms + (ch.map AnalyzedExpr.min_size).sum ∧
        cs' = (cs && ch.all AnalyzedExpr.const_size) ∧
        hd' = (hd || ch.any AnalyzedExpr.hard) ∧
        (ll' = true → ll = true ∨ ∃ i, ∃ hi : i < ch.length,
          (ch.get ⟨i, hi⟩).looks_left = true ∧
          ms + ((ch.take i).map AnalyzedExpr.min_size).sum = 0) ∧
        (∀ n ∈ nodesOfList ch, goodNode n = true ∧ n.end_group ≤ g' ∧ groupHardMark b n) := by
  intro v
  induction v with
  | nil =>
    intro _ g ms cs hd ll ch ms' cs' hd' ll' g' h
    rw [visitConcatGo] at h
    simp only [Except.ok.injEq, Prod.mk.injEq] at h
    obtain ⟨h1, h2, h3, h4, h5, h6⟩ := h
    subst h1; subst h2; subst h3; subst h4; subst h5; subst h6
    refine ⟨by rw [countGroupsList]; omega, rfl, by simp, by simp, by simp, ?_, ?_⟩
    · intro hll; exact Or.inl hll
    · intro n hn; rw [nodesOfList_nil] at hn; cases hn
  | cons c rest ih =>
    intro hIH g ms cs hd ll ch ms' cs' hd' ll' g' h
    rw [visitConcatGo] at h
    cases hv : visit b c g with
    | error f => simp only [hv] at h; exact Except.noConfusion h
    | ok p =>
      obtain ⟨ac, g1⟩ := p
      simp only [hv] at h
      cases hrest : visitConcatGo b rest g1 (ms + ac.min_size) (cs && ac.const_size)
          (hd || ac.hard) (ll || (ac.looks_left && ms == 0)) with
      | error f => simp only [hrest] at h; exact Except.noConfusion h
      | ok q =>
        obtain ⟨chs, ms1, cs1, hd1, ll1, g2⟩ := q
        simp only [hrest, Except.ok.injEq, Prod.mk.injEq] at h
        obtain ⟨h1, h2, h3, h4, h5, h6⟩ := h
        subst h1; subst h2; subst h3; subst h4; subst h5; subst h6
        have hInv := hIH c (List.mem_cons_self _ _) g ac g1 hv
        obtain ⟨hexpr, hstart, hend, hcount, hnodes⟩ := hInv
        have ihr := ih (fun x hx => hIH x (List.mem_cons_of_mem _ hx)) g1
          (ms + ac.min_size) (cs && ac.const_size) (hd || ac.hard)
          (ll || (ac.looks_left && ms == 0)) chs ms1 cs1 hd1 ll1 g2 hrest
        obtain ⟨ih1, ih2, ih3, ih4, ih5, ih6, ih7⟩ := ihr
        refine ⟨?_, ?_, ?_, ?_, ?_, ?_, ?_⟩
        · rw [countGroupsList]; omega
        · exact ⟨hstart, by rw [hend]; exact ih2⟩
        · simp only [List.map_cons, List.sum_cons]; omega
        · rw [ih4, List.all_cons, Bool.and_assoc]
        · rw [ih5, List.any_cons, Bool.or_assoc]
        · intro hll
          rcases ih6 hll with hl | ⟨i, hi, hgl, hsum⟩
          · rcases Bool.or_eq_true .. |>.mp hl with hl' | hl'
            · exact Or.inl hl'
            · rcases Bool.and_eq_true .. |>.mp hl' with ⟨hal, hms0⟩
              refine Or.inr ⟨0, by simp, ?_, ?_⟩
              · simpa using hal
              · simp only [List.take_zero, List.map_nil, List.sum_nil, Nat.add_zero]
                simpa using hms0
          · refine Or.inr ⟨i + 1, by simpa using Nat.succ_lt_succ hi, ?_, ?_⟩
            · simpa [List.get_cons_succ] using hgl
            · simp only [List.take_succ_cons, List.map_cons, List.sum_cons]
              omega
        · intro n hn
          rw [nodesOfList_cons, List.mem_append] at hn
          rcases hn with hn | hn
          · obtain ⟨hg, hle, hm⟩ := hnodes n hn
            exact ⟨hg, by omega, hm⟩
          · exact ih7 n hn

theorem visitAltGo_inv (b : List Nat) :
    ∀ (v : List Expr),
      (∀ c ∈ v, ∀ g a g', visit b c g = .ok (a, g') → Inv b c g a g') →
      ∀ g ms cs hd ll ch ms' cs' hd' ll' g',
        visitAltGo b v g ms cs hd ll = .ok (ch, ms', cs', hd', ll', g') →
        g' = g + countGroupsList v ∧
        chainFrom g ch g' ∧
        ms' ≤ ms ∧
        (∀ x ∈ ch, ms' ≤ x.min_size) ∧
        (ms' = ms ∨ ∃ x ∈ ch, ms' = x.min_size) ∧
        (cs' = true ↔ (cs = true ∧ ∀ x ∈ ch, x.const_size = true ∧ x.min_size = ms)) ∧
        hd' = (hd || ch.any AnalyzedExpr.hard) ∧
        ll' = (ll || ch.any AnalyzedExpr.looks_left) ∧
        (∀ n ∈ nodesOfList ch, goodNode n = true ∧ n.end_group ≤ g' ∧ groupHardMark b n) := by
  intro v
  induction v with
  | nil =>
    intro _ g ms cs hd ll ch ms' cs' hd' ll' g' h
    rw [visitAltGo] at h
    simp only [Except.ok.injEq, Prod.mk.injEq] at h
    obtain ⟨h1, h2, h3, h4, h5, h6⟩ := h
    subst h1; subst h2; subst h3; subst h4; subst h5; subst h6
    refine ⟨by rw [countGroupsList]; omega, rfl, le_refl _, ?_, Or.inl rfl, ?_, by simp, by simp, ?_⟩
    · intro x hx; cases hx
    · constructor
      · intro hcs; exact ⟨hcs, fun x hx => absurd hx (List.not_mem_nil x)⟩
      · intro hcs; exact hcs.1
    · intro n hn; rw [nodesOfList_nil] at hn; cases hn
  | cons c rest ih =>
    intro hIH g ms cs hd ll ch ms' cs' hd' ll' g' h
    rw [visitAltGo] at h
    cases hv : visit b c g with
    | error f => simp only [hv] at h; exact Except.noConfusion h
    | ok p =>
      obtain ⟨ac, g1⟩ := p
      simp only [hv] at h
      cases hrest : visitAltGo b rest g1 (min ms ac.min_size)
          (cs && (ac.const_size && ms == ac.min_size))
          (hd || ac.hard) (ll || ac.looks_left) with
      | error f => simp only [hrest] at h; exact Except.noConfusion h
      | ok q =>
        obtain ⟨chs, ms1, cs1, hd1, ll1, g2⟩ := q
        simp only [hrest, Except.ok.injEq, Prod.mk.injEq] at h
        obtain ⟨h1, h2, h3, h4, h5, h6⟩ := h
        subst h1; subst h2; subst h3; subst h4; subst h5; subst h6
        have hInv := hIH c (List.mem_cons_self _ _) g ac g1 hv
        obtain ⟨hexpr, hstart, hend, hcount, hnodes⟩ := hInv
        have ihr := ih (fun x hx => hIH x (List.mem_cons_of_mem _ hx)) g1
          (min ms ac.min_size) (cs && (ac.const_size && ms == ac.min_size))
          (hd || ac.hard) (ll || ac.looks_left) chs ms1 cs1 hd1 ll1 g2 hrest
        obtain ⟨ih1, ih2, ih3, ih4, ih5, ih6, ih7, ih8, ih9⟩ := ihr
        refine ⟨?_, ?_, ?_, ?_, ?_, ?_, ?_, ?_, ?_⟩
        · rw [countGroupsList]; omega
        · exact ⟨hstart, by rw [hend]; exact ih2⟩
        · exact le_trans ih3 (Nat.min_le_left _ _)
        · intro x hx
          rcases List.mem_cons.mp hx with hx | hx
          · subst hx; exact le_trans ih3 (Nat.min_le_right _ _)
          · exact ih4 x hx
        · rcases ih5 with hm | ⟨x, hx, hm⟩
          · rcases le_total ms ac.min_size with hle | hle
            · rw [Nat.min_eq_left hle] at hm; exact Or.inl hm
            · rw [Nat.min_eq_right hle] at hm
              exact Or.inr ⟨ac, List.mem_cons_self _ _, hm⟩
          · exact Or.inr ⟨x, List.mem_cons_of_mem _ hx, hm⟩
        · constructor
          · intro hcs
            obtain ⟨hcs1, hrest'⟩ := ih6.mp hcs
            rcases Bool.and_eq_true .. |>.mp hcs1 with ⟨hc, hc'⟩
            rcases Bool.and_eq_true .. |>.mp hc' with ⟨hacc, hbeq⟩
            have hmeq : ms = ac.min_size := by simpa using hbeq
            have hmin : min ms ac.min_size = ms := by rw [← hmeq, Nat.min_self]
            refine ⟨hc, ?_⟩
            intro x hx
            rcases List.mem_cons.mp hx with hx | hx
            · subst hx; exact ⟨hacc, hmeq.symm⟩
            · obtain ⟨hxc, hxm⟩ := hrest' x hx
              exact ⟨hxc, by rw [hxm, hmin]⟩
          · intro ⟨hc, hall⟩
            obtain ⟨hacc, hacm⟩ := hall ac (List.mem_cons_self _ _)
            have hmin : min ms ac.min_size = ms := by rw [hacm, Nat.min_self]
            apply ih6.mpr
            constructor
            · rw [hc, hacc]
              simp [hacm]
            · intro x hx
              obtain ⟨hxc, hxm⟩ := hall x (List.mem_cons_of_mem _ hx)
              exact ⟨hxc, by rw [hxm, hmin]⟩
        · rw [ih7, List.any_cons, Bool.or_assoc]
        · rw [ih8, List.any_cons, Bool.or_assoc]
        · intro n hn
          rw [nodesOfList_cons, List.mem_append] at hn
          rcases hn with hn | hn
          · obtain ⟨hg, hle, hm⟩ := hnodes n hn
            exact ⟨hg, by omega, hm⟩
          · exact ih9 n hn

theorem Inv_leaf (b : List Nat) (e : Expr) (g ms : Nat) (cs hd ll : Bool)
    (hcount : countGroups e = 0) (hng : ∀ c, e ≠ .Group c) :
    Inv b e g (.mk e [] g g ms cs hd ll) g := by
  refine ⟨rfl, rfl, rfl, by omega, ?_⟩
  intro n hn
  rw [nodesOf_mk, nodesOfList_nil] at hn
  rcases List.mem_singleton.mp hn with rfl
  refine ⟨?_, le_refl _, ?_⟩
  · unfold goodNode
    cases e <;>
      simp [AnalyzedExpr.expr, AnalyzedExpr.children, AnalyzedExpr.start_group,
        AnalyzedExpr.end_group, siblingsChained]
  · intro c hc
    exact absurd (by simpa [AnalyzedExpr.expr] using hc) (hng c)

theorem visit_inv_aux (b : List Nat) :
    ∀ N : Nat, ∀ e : Expr, sizeOf e ≤ N →
      ∀ g a g', visit b e g = .ok (a, g') → Inv b e g a g' := by
  intro N
  induction N with
  | zero =>
    intro e he
    exfalso
    cases e <;> simp at he
  | succ N ihN =>
    intro e he g a g' h
    cases e with
    | Empty =>
      rw [visit] at h
      simp only [Except.ok.injEq, Prod.mk.injEq] at h
      obtain ⟨rfl, rfl⟩ := h
      exact Inv_leaf b _ g _ _ _ _ rfl (fun c => by simp)
    | EndText =>
      rw [visit] at h
      simp only [Except.ok.injEq, Prod.mk.injEq] at h
      obtain ⟨rfl, rfl⟩ := h
      exact Inv_leaf b _ g _ _ _ _ rfl (fun c => by simp)
    | EndLine =>
      rw [visit] at h
      simp only [Except.ok.injEq, Prod.mk.injEq] at h
      obtain ⟨rfl, rfl⟩ := h
      exact Inv_leaf b _ g _ _ _ _ rfl (fun c => by simp)
    | Any nl =>
      rw [visit] at h
      simp only [Except.ok.injEq, Prod.mk.injEq] at h
      obtain ⟨rfl, rfl⟩ := h
      exact Inv_leaf b _ g _ _ _ _ rfl (fun c => by simp)
    | Literal val casei =>
      rw [visit] at h
      simp only [Except.ok.injEq, Prod.mk.injEq] at h
      obtain ⟨rfl, rfl⟩ := h
      exact Inv_leaf b _ g _ _ _ _ rfl (fun c => by simp)
    | StartText =>
      rw [visit] at h
      simp only [Except.ok.injEq, Prod.mk.injEq] at h
      obtain ⟨rfl, rfl⟩ := h
      exact Inv_leaf b _ g _ _ _ _ rfl (fun c => by simp)
    | StartLine =>
      rw [visit] at h
      simp only [Except.ok.injEq, Prod.mk.injEq] at h
      obtain ⟨rfl, rfl⟩ := h
      exact Inv_leaf b _ g _ _ _ _ rfl (fun c => by simp)
    | Delegate inner size =>
      rw [visit] at h
      simp only [Except.ok.injEq, Prod.mk.injEq] at h
      obtain ⟨rfl, rfl⟩ := h
      exact Inv_leaf b _ g _ _ _ _ rfl (fun c => by simp)
    | Backref k =>
      rw [visit] at h
      by_cases hk : k ≥ g
      · rw [if_pos hk] at h; exact Except.noConfusion h
      · rw [if_neg hk] at h
        simp only [Except.ok.injEq, Prod.mk.injEq] at h
        obtain ⟨rfl, rfl⟩ := h
        exact Inv_leaf b _ g _ _ _ _ rfl (fun c => by simp)
    | Group c =>
      rw [visit] at h
      cases hv : visit b c (g + 1) with
      | error f => simp only [hv] at h; exact Except.noConfusion h
      | ok p =>
        obtain ⟨ac, g1⟩ := p
        simp only [hv, Except.ok.injEq, Prod.mk.injEq] at h
        obtain ⟨rfl, rfl⟩ := h
        have hsz : sizeOf c ≤ N := by simp at he; omega
        have hInv := ihN c hsz (g + 1) ac g1 hv
        obtain ⟨hexpr, hstart, hend, hcount, hnodes⟩ := hInv
        refine ⟨rfl, rfl, rfl, by rw [countGroups]; omega, ?_⟩
        intro n hn
        rw [nodesOf_mk, nodesOfList_cons, nodesOfList_nil, List.append_nil] at hn
        rcases List.mem_cons.mp hn with rfl | hn
        · refine ⟨?_, le_refl _, ?_⟩
          · simp [goodNode, AnalyzedExpr.expr, AnalyzedExpr.start_group,
              AnalyzedExpr.end_group]
            omega
          · intro c' _ hcont
            simp only [AnalyzedExpr.start_group] at hcont
            simp only [AnalyzedExpr.hard, hcont, Bool.or_true]
        · obtain ⟨hg, hle, hm⟩ := hnodes n hn
          exact ⟨hg, hle, hm⟩
    | LookAround c k =>
      rw [visit] at h
      cases hv : visit b c g with
      | error f => simp only [hv] at h; exact Except.noConfusion h
      | ok p =>
        obtain ⟨ac, g1⟩ := p
        simp only [hv, Except.ok.injEq, Prod.mk.injEq] at h
        obtain ⟨rfl, rfl⟩ := h
        have hsz : sizeOf c ≤ N := by simp at he; omega
        have hInv := ihN c hsz g ac g1 hv
        obtain ⟨hexpr, hstart, hend, hcount, hnodes⟩ := hInv
        refine ⟨rfl, rfl, rfl, by rw [countGroups]; omega, ?_⟩
        intro n hn
        rw [nodesOf_mk, nodesOfList_cons, nodesOfList_nil, List.append_nil] at hn
        rcases List.mem_cons.mp hn with rfl | hn
        · refine ⟨?_, le_refl _, ?_⟩
          · simp [goodNode, AnalyzedExpr.expr, AnalyzedExpr.start_group,
              AnalyzedExpr.end_group]
            omega
          · intro c' hc'
            exact absurd hc' (by simp [AnalyzedExpr.expr])
        · exact hnodes n hn
    | Repeat c lo hi gr =>
      rw [visit] at h
      cases hv : visit b c g with
      | error f => simp only [hv] at h; exact Except.noConfusion h
      | ok p =>
        obtain ⟨ac, g1⟩ := p
        simp only [hv, Except.ok.injEq, Prod.mk.injEq] at h
        obtain ⟨rfl, rfl⟩ := h
        have hsz : sizeOf c ≤ N := by simp at he; omega
        have hInv := ihN c hsz g ac g1 hv
        obtain ⟨hexpr, hstart, hend, hcount, hnodes⟩ := hInv
        refine ⟨rfl, rfl, rfl, by rw [countGroups]; omega, ?_⟩
        intro n hn
        rw [nodesOf_mk, nodesOfList_cons, nodesOfList_nil, List.append_nil] at hn
        rcases List.mem_cons.mp hn with rfl | hn
        · refine ⟨?_, le_refl _, ?_⟩
          · simp [goodNode, AnalyzedExpr.expr, AnalyzedExpr.start_group,
              AnalyzedExpr.end_group]
            omega
          · intro c' hc'
            exact absurd hc' (by simp [AnalyzedExpr.expr])
        · exact hnodes n hn
    | AtomicGroup c =>
      rw [visit] at h
      cases hv : visit b c g with
      | error f => simp only [hv] at h; exact Except.noConfusion h
      | ok p =>
        obtain ⟨ac, g1⟩ := p
        simp only [hv, Except.ok.injEq, Prod.mk.injEq] at h
        obtain ⟨rfl, rfl⟩ := h
        have hsz : sizeOf c ≤ N := by simp at he; omega
        have hInv := ihN c hsz g ac g1 hv
        obtain ⟨hexpr, hstart, hend, hcount, hnodes⟩ := hInv
        refine ⟨rfl, rfl, rfl, by rw [countGroups]; omega, ?_⟩
        intro n hn
        rw [nodesOf_mk, nodesOfList_cons, nodesOfList_nil, List.append_nil] at hn
        rcases List.mem_cons.mp hn with rfl | hn
        · refine ⟨?_, le_refl _, ?_⟩
          · simp [goodNode, AnalyzedExpr.expr, AnalyzedExpr.start_group,
              AnalyzedExpr.end_group]
            omega
          · intro c' hc'
            exact absurd hc' (by simp [AnalyzedExpr.expr])
        · exact hnodes n hn
    | Concat v =>
      rw [visit] at h
      cases hgo : visitConcatGo b v g 0 true false false with
      | error f => simp only [hgo] at h; exact Except.noConfusion h
      | ok q =>
        obtain ⟨ch, ms, cs, hd, ll, g2⟩ := q
        simp only [hgo, Except.ok.injEq, Prod.mk.injEq] at h
        obtain ⟨rfl, rfl⟩ := h
        have hIHel : ∀ c ∈ v, ∀ g a g', visit b c g = .ok (a, g') → Inv b c g a g' := by
          intro c hc
          have hsc : sizeOf c < sizeOf v := List.sizeOf_lt_of_mem hc
          have hsv : sizeOf (Expr.Concat v) ≤ N + 1 := he
          have : sizeOf c ≤ N := by simp at hsv; omega
          exact ihN c this
        obtain ⟨c1, c2, c3, c4, c5, c6, c7⟩ :=
          visitConcatGo_inv b v hIHel g 0 true false false ch ms cs hd ll g2 hgo
        refine ⟨rfl, rfl, rfl, by rw [countGroups]; omega, ?_⟩
        intro n hn
        rw [nodesOf_mk] at hn
        rcases List.mem_cons.mp hn with rfl | hn
        · refine ⟨?_, le_refl _, ?_⟩
          · unfold goodNode
            simp only [AnalyzedExpr.expr, AnalyzedExpr.children, AnalyzedExpr.start_group,
              AnalyzedExpr.end_group, Bool.and_eq_true, decide_eq_true_eq]
            exact ⟨by omega, chainFrom_siblingsChained ch g g2 c2⟩
          · intro c' hc'
            exact absurd hc' (by simp [AnalyzedExpr.expr])
        · exact c7 n hn
    | Alt v =>
      cases v with
      | nil => rw [visit] at h; exact Except.noConfusion h
      | cons c0 rest =>
        rw [visit] at h
        cases hv0 : visit b c0 g with
        | error f => simp only [hv0] at h; exact Except.noConfusion h
        | ok p =>
          obtain ⟨a0, g0⟩ := p
          simp only [hv0] at h
          cases halt : visitAltGo b rest g0 a0.min_size a0.const_size a0.hard false with
          | error f => simp only [halt] at h; exact Except.noConfusion h
          | ok q =>
            obtain ⟨ch, ms, cs, hd, ll, g2⟩ := q
            simp only [halt, Except.ok.injEq, Prod.mk.injEq] at h
            obtain ⟨rfl, rfl⟩ := h
            have hsz0 : sizeOf c0 ≤ N := by simp at he; omega
            have h0 := ihN c0 hsz0 g a0 g0 hv0
            obtain ⟨h0expr, h0start, h0end, h0count, h0nodes⟩ := h0
            have hIHel : ∀ c ∈ rest, ∀ g a g', visit b c g = .ok (a, g') → Inv b c g a g' := by
              intro c hc
              have hsc : sizeOf c < sizeOf rest := List.sizeOf_lt_of_mem hc
              have : sizeOf c ≤ N := by simp at he; omega
              exact ihN c this
            obtain ⟨c1, c2, c3, c4, c5, c6, c7, c8, c9⟩ :=
              visitAltGo_inv b rest hIHel g0 a0.min_size a0.const_size a0.hard false
                ch ms cs hd ll g2 halt
            refine ⟨rfl, rfl, rfl, ?_, ?_⟩
            · rw [countGroups, countGroupsList]; omega
            · intro n hn
              rw [nodesOf_mk, nodesOfList_cons, List.mem_cons, List.mem_append] at hn
              rcases hn with rfl | hn | hn
              · refine ⟨?_, le_refl _, ?_⟩
                · unfold goodNode
                  simp only [AnalyzedExpr.expr, AnalyzedExpr.children,
                    AnalyzedExpr.start_group, AnalyzedExpr.end_group, Bool.and_eq_true,
                    decide_eq_true_eq]
                  refine ⟨by omega, ?_⟩
                  exact chainFrom_siblingsChained (a0 :: ch) g g2 ⟨h0start, by rw [h0end]; exact c2⟩
                · intro c' hc'
                  exact absurd hc' (by simp [AnalyzedExpr.expr])
              · obtain ⟨hg, hle, hm⟩ := h0nodes n hn
                exact ⟨hg, by omega, hm⟩
              · exact c9 n hn

/-- Short form of the statement that `visit` and the spec's walk agree
on expression `e` from counter `g`: either both succeed with the same
final counter, or both report an invalid backreference. -/
def SyncAt (b : List Nat) (e : Expr) (g : Nat) : Prop :=
  (∃ a g', visit b e g = .ok (a, g') ∧ specWalk e g = .ok g') ∨
  (visit b e g = .error .invalidBackref ∧ specWalk e g = .error ())

/-- Same agreement for the child loops against `specWalkList`. -/
def SyncListAt (r : Nat → Except Failure
    (List AnalyzedExpr × Nat × Bool × Bool × Bool × Nat)) (v : List Expr) (g : Nat) : Prop :=
  (∃ ch ms' cs' hd' ll' g', r g = .ok (ch, ms', cs', hd', ll', g') ∧
    specWalkList v g = .ok g') ∨
  (r g = .error .invalidBackref ∧ specWalkList v g = .error ())

theorem visitConcatGo_sync (b : List Nat) :
    ∀ (v : List Expr),
      (∀ c ∈ v, wellFormed c = true → ∀ g, SyncAt b c g) →
      wellFormedList v = true →
      ∀ g ms cs hd ll, SyncListAt (fun g0 => visitConcatGo b v g0 ms cs hd ll) v g := by
  intro v
  induction v with
  | nil =>
    intro _ _ g ms cs hd ll
    exact Or.inl ⟨[], ms, cs, hd, ll, g, rfl, rfl⟩
  | cons c rest ih =>
    intro hIH hwf g ms cs hd ll
    rw [wellFormedList, Bool.and_eq_true] at hwf
    rcases hIH c (List.mem_cons_self _ _) hwf.1 g with ⟨a, g1, hv, hs⟩ | ⟨hv, hs⟩
    · rcases ih (fun x hx => hIH x (List.mem_cons_of_mem _ hx)) hwf.2 g1
        (ms + a.min_size) (cs && a.const_size) (hd || a.hard)
        (ll || (a.looks_left && ms == 0)) with
        ⟨ch, ms', cs', hd', ll', g', hgo, hsl⟩ | ⟨hgo, hsl⟩
      · exact Or.inl ⟨a :: ch, ms', cs', hd', ll', g',
          by simp only [visitConcatGo, hv, hgo],
          by simp only [specWalkList, hs, hsl]⟩
      · exact Or.inr ⟨by simp only [visitConcatGo, hv, hgo],
          by simp only [specWalkList, hs, hsl]⟩
    · exact Or.inr ⟨by simp only [visitConcatGo, hv],
        by simp only [specWalkList, hs]⟩

theorem visitAltGo_sync (b : List Nat) :
    ∀ (v : List Expr),
      (∀ c ∈ v, wellFormed c = true → ∀ g, SyncAt b c g) →
      wellFormedList v = true →
      ∀ g ms cs hd ll, SyncListAt (fun g0 => visitAltGo b v g0 ms cs hd ll) v g := by
  intro v
  induction v with
  | nil =>
    intro _ _ g ms cs hd ll
    exact Or.inl ⟨[], ms, cs, hd, ll, g, rfl, rfl⟩
  | cons c rest ih =>
    intro hIH hwf g ms cs hd ll
    rw [wellFormedList, Bool.and_eq_true] at hwf
    rcases hIH c (List.mem_cons_self _ _) hwf.1 g with ⟨a, g1, hv, hs⟩ | ⟨hv, hs⟩
    · rcases ih (fun x hx => hIH x (List.mem_cons_of_mem _ hx)) hwf.2 g1
        (min ms a.min_size) (cs && (a.const_size && ms == a.min_size))
        (hd || a.hard) (ll || a.looks_left) with
        ⟨ch, ms', cs', hd', ll', g', hgo, hsl⟩ | ⟨hgo, hsl⟩
      · exact Or.inl ⟨a :: ch, ms', cs', hd', ll', g',
          by simp only [visitAltGo, hv, hgo],
          by simp only [specWalkList, hs, hsl]⟩
      · exact Or.inr ⟨by simp only [visitAltGo, hv, hgo],
          by simp only [specWalkList, hs, hsl]⟩
    · exact Or.inr ⟨by simp only [visitAltGo, hv],
        by simp only [specWalkList, hs]⟩

theorem visit_sync_aux (b : List Nat) :
    ∀ N : Nat, ∀ e : Expr, sizeOf e ≤ N → wellFormed e = true → ∀ g, SyncAt b e g := by
  intro N
  induction N with
  | zero =>
    intro e he
    exfalso
    cases e <;> simp at he
  | succ N ihN =>
    intro e he hwf g
    cases e with
    | Empty => exact Or.inl ⟨_, g, rfl, rfl⟩
    | EndText => exact Or.inl ⟨_, g, rfl, rfl⟩
    | EndLine => exact Or.inl ⟨_, g, rfl, rfl⟩
    | Any nl => exact Or.inl ⟨_, g, rfl, rfl⟩
    | Literal val casei => exact Or.inl ⟨_, g, rfl, rfl⟩
    | StartText => exact Or.inl ⟨_, g, rfl, rfl⟩
    | StartLine => exact Or.inl ⟨_, g, rfl, rfl⟩
    | Delegate inner size => exact Or.inl ⟨_, g, rfl, rfl⟩
    | Backref k =>
      by_cases hk : k ≥ g
      · exact Or.inr ⟨by rw [visit, if_pos hk], by rw [specWalk, if_pos hk]⟩
      · exact Or.inl ⟨_, g, by rw [visit, if_neg hk], by rw [specWalk, if_neg hk]⟩
    | Group c =>
      rw [wellFormed] at hwf
      have hsz : sizeOf c ≤ N := by simp at he; omega
      rcases ihN c hsz hwf (g + 1) with ⟨a, g1, hv, hs⟩ | ⟨hv, hs⟩
      · exact Or.inl ⟨_, g1, by simp only [visit, hv]; rfl, by simp only [specWalk, hs]⟩
      · exact Or.inr ⟨by simp only [visit, hv], by simp only [specWalk, hs]⟩
    | LookAround c k =>
      rw [wellFormed] at hwf
      have hsz : sizeOf c ≤ N := by simp at he; omega
      rcases ihN c hsz hwf g with ⟨a, g1, hv, hs⟩ | ⟨hv, hs⟩
      · exact Or.inl ⟨_, g1, by simp only [visit, hv]; rfl, by simp only [specWalk, hs]⟩
      · exact Or.inr ⟨by simp only [visit, hv], by simp only [specWalk, hs]⟩
    | Repeat c lo hi gr =>
      rw [wellFormed] at hwf
      have hsz : sizeOf c ≤ N := by simp at he; omega
      rcases ihN c hsz hwf g with ⟨a, g1, hv, hs⟩ | ⟨hv, hs⟩
      · exact Or.inl ⟨_, g1, by simp only [visit, hv]; rfl, by simp only [specWalk, hs]⟩
      · exact Or.inr ⟨by simp only [visit, hv], by simp only [specWalk, hs]⟩
    | AtomicGroup c =>
      rw [wellFormed] at hwf
      have hsz : sizeOf c ≤ N := by simp at he; omega
      rcases ihN c hsz hwf g with ⟨a, g1, hv, hs⟩ | ⟨hv, hs⟩
      · exact Or.inl ⟨_, g1, by simp only [visit, hv]; rfl, by simp only [specWalk, hs]⟩
      · exact Or.inr ⟨by simp only [visit, hv], by simp only [specWalk, hs]⟩
    | Concat v =>
      rw [wellFormed] at hwf
      have hIHel : ∀ c ∈ v, wellFormed c = true → ∀ g, SyncAt b c g := by
        intro c hc
        have hsc : sizeOf c < sizeOf v := List.sizeOf_lt_of_mem hc
        have : sizeOf c ≤ N := by simp at he; omega
        exact ihN c this
      rcases visitConcatGo_sync b v hIHel hwf g 0 true false false with
        ⟨ch, ms', cs', hd', ll', g', hgo, hsl⟩ | ⟨hgo, hsl⟩
      · exact Or.inl ⟨_, g', by simp only [visit]; simp only at hgo; simp only [hgo]; rfl,
          by simp only [specWalk, hsl]⟩
      · exact Or.inr ⟨by simp only [visit]; simp only at hgo; simp only [hgo],
          by simp only [specWalk, hsl]⟩
    | Alt v =>
      rw [wellFormed, Bool.and_eq_true] at hwf
      cases v with
      | nil => simp at hwf
      | cons c0 rest =>
        have hsz0 : sizeOf c0 ≤ N := by simp at he; omega
        rw [wellFormedList, Bool.and_eq_true] at hwf
        have hwf0 : wellFormed c0 = true := hwf.2.1
        have hwfrest : wellFormedList rest = true := hwf.2.2
        have hIHel : ∀ c ∈ rest, wellFormed c = true → ∀ g, SyncAt b c g := by
          intro c hc
          have hsc : sizeOf c < sizeOf rest := List.sizeOf_lt_of_mem hc
          have : sizeOf c ≤ N := by simp at he; omega
          exact ihN c this
        rcases ihN c0 hsz0 hwf0 g with ⟨a0, g0, hv0, hs0⟩ | ⟨hv0, hs0⟩
        · rcases visitAltGo_sync b rest hIHel hwfrest g0
            a0.min_size a0.const_size a0.hard false with
            ⟨ch, ms', cs', hd', ll', g', hgo, hsl⟩ | ⟨hgo, hsl⟩
          · exact Or.inl ⟨_, g',
              by simp only [visit, hv0]; simp only at hgo; simp only [hgo]; rfl,
              by show specWalkList (c0 :: rest) g = .ok g'
                 simp only [specWalkList, hs0, hsl]⟩
          · refine Or.inr ⟨?_, ?_⟩
            · simp only [visit, hv0]
              simp only at hgo
              simp only [hgo]
            · show specWalkList (c0 :: rest) g = .error ()
              simp only [specWalkList, hs0, hsl]
        · refine Or.inr ⟨by simp only [visit, hv0], ?_⟩
          show specWalkList (c0 :: rest) g = .error ()
          simp only [specWalkList, hs0]

/-- A successful `visit` satisfies the walk invariant. -/
theorem visit_inv (b : List Nat) (e : Expr) (g : Nat) (a : AnalyzedExpr) (g' : Nat)
    (h : visit b e g = .ok (a, g')) : Inv b e g a g' :=
  visit_inv_aux b (sizeOf e) e (le_refl _) g a g' h

/-- On well-formed input, `visit` and `specWalk` agree. -/
theorem visit_sync (b : List Nat) (e : Expr) (hwf : wellFormed e = true) (g : Nat) :
    SyncAt b e g :=
  visit_sync_aux b (sizeOf e) e (le_refl _) hwf g

/-! ### Claim theorems -/

/-- Claim C8: a `LookAround` node is annotated `min_size = 0`,
`const_size = true` and `hard = true` regardless of its child's own
size, and `looks_left` is inherited from the child. -/
theorem c8_lookaround_zero_width_hard (b : List Nat) (c : Expr) (k g : Nat)
    (a : AnalyzedExpr) (g' : Nat)
    (h : visit b (.LookAround c k) g = .ok (a, g')) :
    a.min_size = 0 ∧ a.const_size = true ∧ a.hard = true ∧
      ∃ ac, visit b c g = .ok (ac, g') ∧ a.children = [ac] ∧
        a.looks_left = ac.looks_left := by
  rw [visit] at h
  cases hv : visit b c g with
  | error f => simp only [hv] at h; exact Except.noConfusion h
  | ok p =>
    obtain ⟨ac, g1⟩ := p
    simp only [hv, Except.ok.injEq, Prod.mk.injEq] at h
    obtain ⟨rfl, rfl⟩ := h
    exact ⟨rfl, rfl, rfl, ac, rfl, rfl, rfl⟩

/-- Witness for C8: a lookaround wrapping the two-character literal
subtree `ab` (whose own `min_size` is 2) still reports `min_size = 0`,
`const_size = true`, `hard = true`. -/
theorem c8_witness :
    (AnalyzedExpr.mk
        (.LookAround (.Concat [.Literal "a" false, .Literal "b" false]) 0)
        [.mk (.Concat [.Literal "a" false, .Literal "b" false])
            [.mk (.Literal "a" false) [] 0 0 1 true false false,
             .mk (.Literal "b" false) [] 0 0 1 true false false]
            0 0 2 true false false]
        0 0 0 true true false).min_size = 0 ∧
    (AnalyzedExpr.mk
        (.LookAround (.Concat [.Literal "a" false, .Literal "b" false]) 0)
        [.mk (.Concat [.Literal "a" false, .Literal "b" false])
            [.mk (.Literal "a" false) [] 0 0 1 true false false,
             .mk (.Literal "b" false) [] 0 0 1 true false false]
            0 0 2 true false false]
        0 0 0 true true false).const_size = true ∧
    (AnalyzedExpr.mk
        (.LookAround (.Concat [.Literal "a" false, .Literal "b" false]) 0)
        [.mk (.Concat [.Literal "a" false, .Literal "b" false])
            [.mk (.Literal "a" false) [] 0 0 1 true false false,
             .mk (.Literal "b" false) [] 0 0 1 true false false]
            0 0 2 true false false]
        0 0 0 true true false).hard = true := by
  have h := c8_lookaround_zero_width_hard []
    (.Concat [.Literal "a" false, .Literal "b" false]) 0 0 _ 0 rfl
  exact ⟨h.1, h.2.1, h.2.2.1⟩

/-- Claim C9: a `Repeat` node with bounds `lo`, `hi` gets
`min_size = child.min_size * lo`, `const_size` iff the child is
constant-size and `lo == hi`, and `hard`/`looks_left` inherited from
the child. -/
theorem c9_repeat_bounds (b : List Nat) (c : Expr) (lo hi : Nat) (gr : Bool)
    (g : Nat) (a : AnalyzedExpr) (g' : Nat)
    (h : visit b (.Repeat c lo hi gr) g = .ok (a, g')) :
    ∃ ac, visit b c g = .ok (ac, g') ∧ a.children = [ac] ∧
      a.min_size = ac.min_size * lo ∧
      a.const_size = (ac.const_size && lo == hi) ∧
      a.hard = ac.hard ∧ a.looks_left = ac.looks_left := by
  rw [visit] at h
  cases hv : visit b c g with
  | error f => simp only [hv] at h; exact Except.noConfusion h
  | ok p =>
    obtain ⟨ac, g1⟩ := p
    simp only [hv, Except.ok.injEq, Prod.mk.injEq] at h
    obtain ⟨rfl, rfl⟩ := h
    exact ⟨ac, rfl, rfl, rfl, rfl, rfl, rfl⟩

/-- Witness for C9: `a{3}` — the repeat node has `min_size = 1 * 3`
and `const_size = true` since `3 == 3`. -/
theorem c9_witness :
    ∃ ac, visit [] (.Literal "a" false) 0 = .ok (ac, 0) ∧
      (AnalyzedExpr.mk (.Repeat (.Literal "a" false) 3 3 true)
          [.mk (.Literal "a" false) [] 0 0 1 true false false]
          0 0 3 true false false).children = [ac] ∧
      (AnalyzedExpr.mk (.Repeat (.Literal "a" false) 3 3 true)
          [.mk (.Literal "a" false) [] 0 0 1 true false false]
          0 0 3 true false false).min_size = ac.min_size * 3 ∧
      (AnalyzedExpr.mk (.Repeat (.Literal "a" false) 3 3 true)
          [.mk (.Literal "a" false) [] 0 0 1 true false false]
          0 0 3 true false false).const_size = (ac.const_size && (3 : Nat) == 3) ∧
      (AnalyzedExpr.mk (.Repeat (.Literal "a" false) 3 3 true)
          [.mk (.Literal "a" false) [] 0 0 1 true false false]
          0 0 3 true false false).hard = ac.hard ∧
      (AnalyzedExpr.mk (.Repeat (.Literal "a" false) 3 3 true)
          [.mk (.Literal "a" false) [] 0 0 1 true false false]
          0 0 3 true false false).looks_left = ac.looks_left :=
  c9_repeat_bounds [] (.Literal "a" false) 3 3 true 0 _ 0 rfl

/-- Claim C10: the `Alt` arm indexes `v[0]` with no guard, so an
alternation with an empty branch list reaches the out-of-bounds access
(modelled as the `panicked` failure), while under the precondition that
every alternation has at least one branch the panic is unreachable. -/
theorem c10_alt_empty_branch_panics (b : List Nat) :
    (∀ g, visit b (.Alt []) g = .error .panicked) ∧
    (∀ e, wellFormed e = true → ∀ g, visit b e g ≠ .error .panicked) := by
  constructor
  · intro g; rfl
  · intro e hwf g hcontra
    rcases visit_sync b e hwf g with ⟨a, g', hv, -⟩ | ⟨hv, -⟩
    · rw [hv] at hcontra; exact Except.noConfusion hcontra
    · rw [hv] at hcontra
      injection hcontra with hf
      exact Failure.noConfusion hf

/-- Witness for C10: `Alt []` panics at counter 0, while the
well-formed `Any` node does not. -/
theorem c10_witness :
    visit [] (.Alt []) 0 = .error .panicked ∧
    visit [] (.Any false) 0 ≠ .error .panicked :=
  ⟨(c10_alt_empty_branch_panics []).1 0,
   (c10_alt_empty_branch_panics []).2 (.Any false) rfl 0⟩

/-- Claim C2 (divergence witness): for the alternation `^|` — AST
`Alt [StartText, Empty]`, no backreferences — the first branch is
annotated `looks_left = true`, yet the alternation node is annotated
`looks_left = false`: the `Alt` arm initializes `min_size`,
`const_size` and `hard` from branch 0 but only ORs `looks_left` over
branches 1.., dropping the first branch, contrary to "disjunction over
all branches including the first". -/
theorem c2_first_branch_looks_left_dropped :
    (analyze (.Alt [.StartText, .Empty]) []).map
        (fun a => (a.looks_left, a.children.map AnalyzedExpr.looks_left)) =
      .ok (false, [true, false]) := rfl

/-- Claim C3 (counterexample): a case-insensitive `Literal` node — as
produced by `analyze` — has `is_literal = false`, yet `push_literal`
silently appends its text to the buffer instead of panicking, refuting
"push_literal panics on every node on which is_literal is false". -/
theorem c3_counterexample :
    (analyze (.Literal "a" true) []).map
        (fun a => (a.is_literal, a.push_literal "")) = .ok (false, some "a") := rfl

/-- Claim C3 (amended): `push_literal` panics exactly on nodes whose
AST node is neither a `Literal` (of either case-sensitivity) nor a
`Concat`; on any `Literal` node — case-insensitive included, although
`is_literal` is false there — it appends the literal text to the
buffer without panicking. -/
theorem c3_push_literal_panic (n : AnalyzedExpr) (buf : String) :
    (isLiteralOrConcatNode n = false → n.push_literal buf = none) ∧
    (∀ val casei, n.expr = .Literal val casei →
      n.push_literal buf = some (buf ++ val)) := by
  obtain ⟨e, ch, sg, eg, ms, cs, hd, ll⟩ := n
  constructor
  · intro hnl
    cases e <;>
      first
        | rfl
        | (exfalso; simp [isLiteralOrConcatNode, AnalyzedExpr.expr] at hnl)
  · intro val casei hc
    cases e with
    | Literal v c =>
      simp only [AnalyzedExpr.expr, Expr.Literal.injEq] at hc
      obtain ⟨rfl, rfl⟩ := hc
      rfl
    | Empty => exact absurd hc (by simp [AnalyzedExpr.expr])
    | Any nl => exact absurd hc (by simp [AnalyzedExpr.expr])
    | StartText => exact absurd hc (by simp [AnalyzedExpr.expr])
    | EndText => exact absurd hc (by simp [AnalyzedExpr.expr])
    | StartLine => exact absurd hc (by simp [AnalyzedExpr.expr])
    | EndLine => exact absurd hc (by simp [AnalyzedExpr.expr])
    | Concat v => exact absurd hc (by simp [AnalyzedExpr.expr])
    | Alt v => exact absurd hc (by simp [AnalyzedExpr.expr])
    | Group c => exact absurd hc (by simp [AnalyzedExpr.expr])
    | LookAround c k => exact absurd hc (by simp [AnalyzedExpr.expr])
    | Repeat c lo hi gr => exact absurd hc (by simp [AnalyzedExpr.expr])
    | Delegate inner size => exact absurd hc (by simp [AnalyzedExpr.expr])
    | Backref k => exact absurd hc (by simp [AnalyzedExpr.expr])
    | AtomicGroup c => exact absurd hc (by simp [AnalyzedExpr.expr])

/-- Witness for the amended C3: a `Backref` node panics under
`push_literal`, and a case-insensitive `Literal` node appends its text. -/
theorem c3_witness :
    (AnalyzedExpr.mk (.Backref 0) [] 0 0 0 false true false).push_literal "" = none ∧
    (AnalyzedExpr.mk (.Literal "a" true) [] 0 0 1 true false false).push_literal "x" =
      some ("x" ++ "a") :=
  ⟨(c3_push_literal_panic (.mk (.Backref 0) [] 0 0 0 false true false) "").1 rfl,
   (c3_push_literal_panic (.mk (.Literal "a" true) [] 0 0 1 true false false) "x").2
     "a" true rfl⟩

/-- Claim C5: a `Concat` node's `min_size` is the sum of its children's
`min_size`, `const_size` the conjunction, `hard` the disjunction, and
`looks_left` is true only if some child looks left and the accumulated
`min_size` of the children strictly before it is zero. -/
theorem c5_concat_rules (b : List Nat) (v : List Expr) (g : Nat) (a : AnalyzedExpr)
    (g' : Nat) (h : visit b (.Concat v) g = .ok (a, g')) :
    a.min_size = (a.children.map AnalyzedExpr.min_size).sum ∧
    a.const_size = a.children.all AnalyzedExpr.const_size ∧
    a.hard = a.children.any AnalyzedExpr.hard ∧
    (a.looks_left = true → ∃ i, ∃ hi : i < a.children.length,
      (a.children.get ⟨i, hi⟩).looks_left = true ∧
      ((a.children.take i).map AnalyzedExpr.min_size).sum = 0) := by
  rw [visit] at h
  cases hgo : visitConcatGo b v g 0 true false false with
  | error f => simp only [hgo] at h; exact Except.noConfusion h
  | ok q =>
    obtain ⟨ch, ms, cs, hd, ll, g2⟩ := q
    simp only [hgo, Except.ok.injEq, Prod.mk.injEq] at h
    obtain ⟨rfl, rfl⟩ := h
    have hIHel : ∀ c ∈ v, ∀ g a g', visit b c g = .ok (a, g') → Inv b c g a g' :=
      fun c _ g a g' h => visit_inv b c g a g' h
    obtain ⟨c1, c2, c3, c4, c5, c6, c7⟩ :=
      visitConcatGo_inv b v hIHel g 0 true false false ch ms cs hd ll g2 hgo
    simp only [AnalyzedExpr.min_size, AnalyzedExpr.const_size, AnalyzedExpr.hard,
      AnalyzedExpr.looks_left, AnalyzedExpr.children]
    refine ⟨by omega, by rw [c4, Bool.true_and], by rw [c5, Bool.false_or], ?_⟩
    intro hll
    rcases c6 hll with hf | ⟨i, hi, hl, hs⟩
    · exact Bool.noConfusion hf
    · exact ⟨i, hi, hl, by omega⟩

/-- Witness for C5: `ab*` — the concatenation node has
`min_size = 1 + 0`, `const_size = false` (the repeat child is not
constant-size), `hard = false`, and its `looks_left` is `false` so the
looks-left conjunct holds vacuously. -/
theorem c5_witness :
    (AnalyzedExpr.mk (.Concat [.Literal "a" false, .Repeat (.Literal "b" false) 0 2 true])
        [.mk (.Literal "a" false) [] 0 0 1 true false false,
         .mk (.Repeat (.Literal "b" false) 0 2 true)
            [.mk (.Literal "b" false) [] 0 0 1 true false false] 0 0 0 false false false]
        0 0 1 false false false).min_size =
      (((AnalyzedExpr.mk (.Concat [.Literal "a" false, .Repeat (.Literal "b" false) 0 2 true])
        [.mk (.Literal "a" false) [] 0 0 1 true false false,
         .mk (.Repeat (.Literal "b" false) 0 2 true)
            [.mk (.Literal "b" false) [] 0 0 1 true false false] 0 0 0 false false false]
        0 0 1 false false false).children.map AnalyzedExpr.min_size).sum) ∧
    (AnalyzedExpr.mk (.Concat [.Literal "a" false, .Repeat (.Literal "b" false) 0 2 true])
        [.mk (.Literal "a" false) [] 0 0 1 true false false,
         .mk (.Repeat (.Literal "b" false) 0 2 true)
            [.mk (.Literal "b" false) [] 0 0 1 true false false] 0 0 0 false false false]
        0 0 1 false false false).const_size =
      ((AnalyzedExpr.mk (.Concat [.Literal "a" false, .Repeat (.Literal "b" false) 0 2 true])
        [.mk (.Literal "a" false) [] 0 0 1 true false false,
         .mk (.Repeat (.Literal "b" false) 0 2 true)
            [.mk (.Literal "b" false) [] 0 0 1 true false false] 0 0 0 false false false]
        0 0 1 false false false).children.all AnalyzedExpr.const_size) := by
  have h := c5_concat_rules []
    [.Literal "a" false, .Repeat (.Literal "b" false) 0 2 true] 0 _ 0 rfl
  exact ⟨h.1, h.2.1⟩

/-- Claim C4: an `Alt` node's `min_size` is the minimum over all
branches, and its `const_size` is true iff every branch is
constant-size and all branches share the first branch's `min_size` —
the code's incremental update against the running minimum is equivalent
to this all-branches-agree condition. -/
theorem c4_alt_const_size (b : List Nat) (v : List Expr) (g : Nat) (a : AnalyzedExpr)
    (g' : Nat) (h : visit b (.Alt v) g = .ok (a, g')) :
    ∃ c0 ch, a.children = c0 :: ch ∧
      (∀ c ∈ a.children, a.min_size ≤ c.min_size) ∧
      (∃ c ∈ a.children, c.min_size = a.min_size) ∧
      (a.const_size = true ↔
        ∀ c ∈ a.children, c.const_size = true ∧ c.min_size = c0.min_size) := by
  cases v with
  | nil => rw [visit] at h; exact Except.noConfusion h
  | cons c0e rest =>
    rw [visit] at h
    cases hv0 : visit b c0e g with
    | error f => simp only [hv0] at h; exact Except.noConfusion h
    | ok p =>
      obtain ⟨a0, g0⟩ := p
      simp only [hv0] at h
      cases halt : visitAltGo b rest g0 a0.min_size a0.const_size a0.hard false with
      | error f => simp only [halt] at h; exact Except.noConfusion h
      | ok q =>
        obtain ⟨ch, ms, cs, hd, ll, g2⟩ := q
        simp only [halt, Except.ok.injEq, Prod.mk.injEq] at h
        obtain ⟨rfl, rfl⟩ := h
        have hIHel : ∀ c ∈ rest, ∀ g a g', visit b c g = .ok (a, g') → Inv b c g a g' :=
          fun c _ g a g' h => visit_inv b c g a g' h
        obtain ⟨i1, i2, i3, i4, i5, i6, i7, i8, i9⟩ :=
          visitAltGo_inv b rest hIHel g0 a0.min_size a0.const_size a0.hard false
            ch ms cs hd ll g2 halt
        simp only [AnalyzedExpr.children, AnalyzedExpr.min_size, AnalyzedExpr.const_size]
        refine ⟨a0, ch, rfl, ?_, ?_, ?_⟩
        · intro c hc
          rcases List.mem_cons.mp hc with rfl | hc
          · exact i3
          · exact i4 c hc
        · rcases i5 with hm | ⟨x, hx, hm⟩
          · exact ⟨a0, List.mem_cons_self _ _, hm.symm⟩
          · exact ⟨x, List.mem_cons_of_mem _ hx, hm.symm⟩
        · constructor
          · intro hcs
            obtain ⟨h0, hrest⟩ := i6.mp hcs
            intro c hc
            rcases List.mem_cons.mp hc with rfl | hc
            · exact ⟨h0, rfl⟩
            · exact hrest c hc
          · intro hall
            exact i6.mpr ⟨(hall a0 (List.mem_cons_self _ _)).1,
              fun c hc => hall c (List.mem_cons_of_mem _ hc)⟩

/-- Witness for C4: `a|bb` — the alternation node has `min_size = 1`
(the minimum of 1 and 2) and `const_size = false` because the branches
disagree on `min_size` even though each is individually constant-size. -/
theorem c4_witness :
    ∃ c0 ch,
      (AnalyzedExpr.mk (.Alt [.Literal "a" false, .Concat [.Literal "b" false, .Literal "b" false]])
        [.mk (.Literal "a" false) [] 0 0 1 true false false,
         .mk (.Concat [.Literal "b" false, .Literal "b" false])
            [.mk (.Literal "b" false) [] 0 0 1 true false false,
             .mk (.Literal "b" false) [] 0 0 1 true false false] 0 0 2 true false false]
        0 0 1 false false false).children = c0 :: ch ∧
      (∀ c ∈ (AnalyzedExpr.mk (.Alt [.Literal "a" false, .Concat [.Literal "b" false, .Literal "b" false]])
        [.mk (.Literal "a" false) [] 0 0 1 true false false,
         .mk (.Concat [.Literal "b" false, .Literal "b" false])
            [.mk (.Literal "b" false) [] 0 0 1 true false false,
             .mk (.Literal "b" false) [] 0 0 1 true false false] 0 0 2 true false false]
        0 0 1 false false false).children,
        (AnalyzedExpr.mk (.Alt [.Literal "a" false, .Concat [.Literal "b" false, .Literal "b" false]])
        [.mk (.Literal "a" false) [] 0 0 1 true false false,
         .mk (.Concat [.Literal "b" false, .Literal "b" false])
            [.mk (.Literal "b" false) [] 0 0 1 true false false,
             .mk (.Literal "b" false) [] 0 0 1 true false false] 0 0 2 true false false]
        0 0 1 false false false).min_size ≤ c.min_size) ∧
      (∃ c ∈ (AnalyzedExpr.mk (.Alt [.Literal "a" false, .Concat [.Literal "b" false, .Literal "b" false]])
        [.mk (.Literal "a" false) [] 0 0 1 true false false,
         .mk (.Concat [.Literal "b" false, .Literal "b" false])
            [.mk (.Literal "b" false) [] 0 0 1 true false false,
             .mk (.Literal "b" false) [] 0 0 1 true false false] 0 0 2 true false false]
        0 0 1 false false false).children,
        c.min_size = (AnalyzedExpr.mk (.Alt [.Literal "a" false, .Concat [.Literal "b" false, .Literal "b" false]])
        [.mk (.Literal "a" false) [] 0 0 1 true false false,
         .mk (.Concat [.Literal "b" false, .Literal "b" false])
            [.mk (.Literal "b" false) [] 0 0 1 true false false,
             .mk (.Literal "b" false) [] 0 0 1 true false false] 0 0 2 true false false]
        0 0 1 false false false).min_size) ∧
      ((AnalyzedExpr.mk (.Alt [.Literal "a" false, .Concat [.Literal "b" false, .Literal "b" false]])
        [.mk (.Literal "a" false) [] 0 0 1 true false false,
         .mk (.Concat [.Literal "b" false, .Literal "b" false])
            [.mk (.Literal "b" false) [] 0 0 1 true false false,
             .mk (.Literal "b" false) [] 0 0 1 true false false] 0 0 2 true false false]
        0 0 1 false false false).const_size = true ↔
        ∀ c ∈ (AnalyzedExpr.mk (.Alt [.Literal "a" false, .Concat [.Literal "b" false, .Literal "b" false]])
        [.mk (.Literal "a" false) [] 0 0 1 true false false,
         .mk (.Concat [.Literal "b" false, .Literal "b" false])
            [.mk (.Literal "b" false) [] 0 0 1 true false false,
             .mk (.Literal "b" false) [] 0 0 1 true false false] 0 0 2 true false false]
        0 0 1 false false false).children,
          c.const_size = true ∧ c.min_size = c0.min_size) :=
  c4_alt_const_size []
    [.Literal "a" false, .Concat [.Literal "b" false, .Literal "b" false]] 0 _ 0 rfl

/-- Claim C7: on every successfully analyzed AST, every node of the
returned tree satisfies `start_group ≤ end_group` with sibling ranges
under `Concat`/`Alt` chained left-to-right without overlap
(`goodNode`), and the maximum `end_group` across the tree equals the
total number of `Group` nodes of the AST. -/
theorem c7_group_numbering (e : Expr) (b : List Nat) (a : AnalyzedExpr)
    (h : analyze e b = .ok a) :
    (∀ n ∈ nodesOf a, goodNode n = true) ∧ maxEnd a = countGroups e := by
  unfold analyze at h
  cases hv : visit b e 0 with
  | error f => rw [hv] at h; exact Except.noConfusion h
  | ok p =>
    obtain ⟨a0, g'⟩ := p
    rw [hv] at h
    simp only [Except.map, Except.ok.injEq] at h
    subst h
    obtain ⟨hexpr, hstart, hend, hcount, hnodes⟩ := visit_inv b e 0 a0 g' hv
    refine ⟨fun n hn => (hnodes n hn).1, ?_⟩
    rw [maxEnd_eq a0 g' hend (fun n hn => (hnodes n hn).2.1)]
    omega

/-- Witness for C7: the single-group pattern `(.)` — all nodes satisfy
the range invariant and the maximal `end_group` is 1, the group count. -/
theorem c7_witness :
    (nodesOf (AnalyzedExpr.mk (.Group (.Any false))
        [.mk (.Any false) [] 1 1 1 true false false]
        0 1 1 true false false)).all goodNode = true ∧
    maxEnd (AnalyzedExpr.mk (.Group (.Any false))
        [.mk (.Any false) [] 1 1 1 true false false]
        0 1 1 true false false) = countGroups (.Group (.Any false)) := by
  have h := c7_group_numbering (.Group (.Any false)) []
    (.mk (.Group (.Any false)) [.mk (.Any false) [] 1 1 1 true false false]
      0 1 1 true false false) rfl
  exact ⟨List.all_eq_true.mpr (fun n hn => h.1 n hn), h.2⟩

/-- Claim C6: a `Group` node allocates the next group index before
descending (the child is visited with counter `g + 1` while the node
keeps `start_group = g`), inherits the child's `min_size`,
`const_size` and `looks_left`, and is `hard` iff the child is hard or
the allocated index is in the backreferenced set; consequently, for a
pattern whose backreferenced-set is consistent with its
backreferences, every `Group` node introducing a backreferenced index
is `hard`. -/
theorem c6_group_allocation (b : List Nat) :
    (∀ c g a g', visit b (.Group c) g = .ok (a, g') →
      ∃ ac, visit b c (g + 1) = .ok (ac, g') ∧ a.children = [ac] ∧
        a.start_group = g ∧ a.end_group = g' ∧
        a.min_size = ac.min_size ∧ a.const_size = ac.const_size ∧
        a.looks_left = ac.looks_left ∧
        a.hard = (ac.hard || b.contains g) ∧
        (b.contains g = true → a.hard = true)) ∧
    (∀ e a, (∀ k, mentionsBackref e k = true → b.contains k = true) →
      analyze e b = .ok a →
      ∀ n ∈ nodesOf a, ∀ c, n.expr = .Group c →
        mentionsBackref e n.start_group = true → n.hard = true) := by
  constructor
  · intro c g a g' h
    rw [visit] at h
    cases hv : visit b c (g + 1) with
    | error f => simp only [hv] at h; exact Except.noConfusion h
    | ok p =>
      obtain ⟨ac, g1⟩ := p
      simp only [hv, Except.ok.injEq, Prod.mk.injEq] at h
      obtain ⟨rfl, rfl⟩ := h
      refine ⟨ac, rfl, rfl, rfl, rfl, rfl, rfl, rfl, rfl, ?_⟩
      intro hcont
      simp only [AnalyzedExpr.hard, hcont, Bool.or_true]
  · intro e a hcons h n hn c hc hmention
    unfold analyze at h
    cases hv : visit b e 0 with
    | error f => rw [hv] at h; exact Except.noConfusion h
    | ok p =>
      obtain ⟨a0, g'⟩ := p
      rw [hv] at h
      simp only [Except.map, Except.ok.injEq] at h
      subst h
      obtain ⟨-, -, -, -, hnodes⟩ := visit_inv b e 0 a0 g' hv
      exact (hnodes n hn).2.2 c hc (hcons _ hmention)

/-- Witness for C6: in `(a)\0` — `Concat [Group(Literal a), Backref 0]`
with backreferenced set `{0}` — the `Group` node introducing index 0 is
annotated `hard = true` even though its body is easy. -/
theorem c6_witness :
    (AnalyzedExpr.mk (.Group (.Literal "a" false))
        [.mk (.Literal "a" false) [] 1 1 1 true false false]
        0 1 1 true true false).hard = true := by
  refine (c6_group_allocation [0]).2
    (.Concat [.Group (.Literal "a" false), .Backref 0])
    (.mk (.Concat [.Group (.Literal "a" false), .Backref 0])
      [.mk (.Group (.Literal "a" false))
          [.mk (.Literal "a" false) [] 1 1 1 true false false] 0 1 1 true true false,
       .mk (.Backref 0) [] 1 1 0 false true false]
      0 1 1 false true false)
    ?_ rfl
    (.mk (.Group (.Literal "a" false))
        [.mk (.Literal "a" false) [] 1 1 1 true false false] 0 1 1 true true false)
    ?_ (.Literal "a" false) rfl rfl
  · intro k hk
    have hk' : ((0 == k) || false) = true := hk
    simp only [Bool.or_false] at hk'
    have hk0 : 0 = k := by simpa using hk'
    subst hk0
    rfl
  · rw [nodesOf_mk, nodesOfList_cons]
    exact List.mem_cons_of_mem _
      (List.mem_append_left _ (self_mem_nodesOf _))

/-- Claim C1: `analyze` fails with `InvalidBackref` exactly when the
pre-order walk threading the group counter (the spec-level `specWalk`)
reaches a `Backref` whose group index has not yet been opened
(`group_index ≥ counter`), covering forward references and
self-references; the walk aborts with that error and no tree is
returned; and on the other branch (`group_index < counter`) the
`Backref` node is annotated `hard = true`, `min_size = 0`,
`const_size = false`. -/
theorem c1_invalid_backref (e : Expr) (b : List Nat) (hwf : wellFormed e = true) :
    (analyze e b = .error .invalidBackref ↔ specWalk e 0 = .error ()) ∧
    (∀ k g, g ≤ k → visit b (.Backref k) g = .error .invalidBackref) ∧
    (∀ k g, k < g →
      visit b (.Backref k) g = .ok (.mk (.Backref k) [] g g 0 false true false, g)) := by
  refine ⟨?_, ?_, ?_⟩
  · rcases visit_sync b e hwf 0 with ⟨a, g', hv, hs⟩ | ⟨hv, hs⟩
    · constructor
      · intro h
        unfold analyze at h
        rw [hv] at h
        simp only [Except.map] at h
        exact Except.noConfusion h
      · intro h
        rw [hs] at h
        exact Except.noConfusion h
    · exact iff_of_true (by unfold analyze; rw [hv]; rfl) hs
  · intro k g hk
    rw [visit, if_pos (show k ≥ g by omega)]
  · intro k g hk
    rw [visit, if_neg (show ¬ k ≥ g by omega)]

/-- Witness for C1: the forward-referencing pattern `\1(.)` —
`Concat [Backref 1, Group Any]` — is well formed, and `analyze` fails
with `InvalidBackref` exactly as the spec-level walk does. -/
theorem c1_witness :
    wellFormed (.Concat [.Backref 1, .Group (.Any false)]) = true ∧
    (analyze (.Concat [.Backref 1, .Group (.Any false)]) [1] = .error .invalidBackref ↔
      specWalk (.Concat [.Backref 1, .Group (.Any false)]) 0 = .error ()) ∧
    analyze (.Concat [.Backref 1, .Group (.Any false)]) [1] = .error .invalidBackref :=
  ⟨rfl, (c1_invalid_backref (.Concat [.Backref 1, .Group (.Any false)]) [1] rfl).1, rfl⟩

end FancyRegex
